import Mathlib

/-!
Verification of the pinata-sdk Rust client library.

The development shallowly embeds the parts of the library that the
specification talks about:

* `src/utils.rs`: credential validation (`validate_keys`).
* `src/lib.rs`: client construction (`PinataApi::new`), the response
  mapper (`parse_result` / `parse_ok_result`) and the multipart upload
  assembly performed by `PinataApi::pin_file`.
* `src/api/data.rs`: the request builders (`PinByHash`, `PinByJson`,
  `PinByFile`), the `PinJobsFilter` query filter and its setters.

The crate's `errors.rs`, `api/metadata.rs` and `api/internal.rs` are not
part of the sources; the few types they provide (the error enumeration,
the pin metadata record, the service error envelope, the pin-list filter)
are modelled from the specification and marked as such in their doc
comments.

Rust idioms are embedded as follows: fallible computations
(`Result<T, E>`) become `Except E T`; a computation that may panic via
`unwrap()` is wrapped in `Option`, `none` meaning a panic; `HashMap` is
modelled as an association list; machine integers (`u8`, `u16`, `u64`)
are modelled as `Nat` (no arithmetic is performed on them, so overflow
is irrelevant).
-/

/-! ### Errors (modelled from the spec; `errors.rs` is not in the sources) -/

/-- Modelled from the spec: an error produced while decoding a response
body (`errors.rs` and the concrete `reqwest` decode error are not in the
sources).  The payload only serves to distinguish concrete errors. -/
structure DecodeError where
  code : Nat
deriving DecidableEq, Repr

/-- Modelled from the spec: the error taxonomy of `errors.rs` (not in the
sources).  The spec lists credential-validation errors (empty key or
secret), the generic service-level error carrying the service's message
text, decoding errors, and propagated I/O errors. -/
inductive ApiError where
  | invalidApiKey
  | invalidSecretApiKey
  | genericError (message : String)
  | decodingError (e : DecodeError)
deriving DecidableEq, Repr

/-! ### Credential validation: `validate_keys` in `src/utils.rs` -/

/-- Embedding of `validate_keys` (`src/utils.rs` lines 6-16): error on an
empty api key, then error on an empty secret api key, otherwise ok. -/
def validate_keys (api_key secret_api_key : String) : Except ApiError Unit :=
  if api_key.isEmpty then .error .invalidApiKey
  else if secret_api_key.isEmpty then .error .invalidSecretApiKey
  else .ok ()

/-- Embedding of the validity test performed by the `http` crate's
`HeaderValue::from_str` on each byte of the value: bytes 32.. except
DEL (127) are accepted, as is horizontal tab (9).  A unicode scalar
value at 128 and above encodes to UTF-8 bytes that are all at least
128, hence accepted, so the byte test reduces to this test on chars. -/
def isValidHeaderChar (c : Char) : Bool :=
  (32 ≤ c.toNat && c.toNat != 127) || c.toNat == 9

/-- A string accepted by `HeaderValue::from_str`. -/
def isValidHeaderValue (s : String) : Bool :=
  s.all isValidHeaderChar

/-- Embedding of the `PinataApi` struct (`src/lib.rs` line 96): the only
state is the configured client, which carries the two default
authentication headers. -/
structure PinataApi where
  apiKeyHeader : String
  secretApiKeyHeader : String
deriving DecidableEq, Repr

/-- Embedding of `PinataApi::new` (`src/lib.rs` lines 103-120).
`validate_keys` runs first; afterwards each credential is parsed into a
header value with `.parse().unwrap()`, a panic (modelled as `none`) when
the string is not a valid header value.  `ClientBuilder::build` only
fails for system-level TLS problems, modelled as always succeeding. -/
def pinataApiNew (api_key secret_api_key : String) :
    Option (Except ApiError PinataApi) :=
  match validate_keys api_key secret_api_key with
  | .error e => some (.error e)
  | .ok _ =>
    if isValidHeaderValue api_key then
      if isValidHeaderValue secret_api_key then
        some (.ok ⟨api_key, secret_api_key⟩)
      else none
    else none

/-! ### Response mapper: `parse_result` / `parse_ok_result` in `src/lib.rs` -/

/-- Modelled from the spec: the uniform service-error envelope decoded
from failure responses (`api/internal.rs` is not in the sources).  Its
`message()` accessor returns the message field. -/
structure PinataApiError where
  message : String
deriving DecidableEq, Repr

/-- Embedding of a received HTTP response, as far as the response mapper
inspects it: its status code, and the outcomes of the two body decodes
the mapper may attempt (`response.json::<R>()` and
`response.json::<PinataApiError>()`). -/
structure HttpResponse (R : Type) where
  status : Nat
  decodeBody : Except DecodeError R
  decodeErrorEnvelope : Except DecodeError PinataApiError

/-- Embedding of `StatusCode::is_success` from the `http` crate: the
2xx range. -/
def statusIsSuccess (status : Nat) : Bool :=
  200 ≤ status && status < 300

/-- Embedding of `PinataApi::parse_result` (`src/lib.rs` lines 275-285):
on a success status decode the body as the result type (decode failure
propagating via the question-mark operator as a decoding error); on any
other status decode the body as the service error envelope and return
the generic error carrying its message. -/
def parse_result {R : Type} (response : HttpResponse R) : Except ApiError R :=
  if statusIsSuccess response.status then
    match response.decodeBody with
    | .ok r => .ok r
    | .error e => .error (.decodingError e)
  else
    match response.decodeErrorEnvelope with
    | .ok err => .error (.genericError err.message)
    | .error e => .error (.decodingError e)

/-- Embedding of `PinataApi::parse_ok_result` (`src/lib.rs` lines
287-294): same as `parse_result` but a success status yields unit
without decoding the body. -/
def parse_ok_result {R : Type} (response : HttpResponse R) : Except ApiError Unit :=
  if statusIsSuccess response.status then
    .ok ()
  else
    match response.decodeErrorEnvelope with
    | .ok err => .error (.genericError err.message)
    | .error e => .error (.decodingError e)

/-! ### List filters: `PinJobsFilter` in `src/api/data.rs` -/

/-- Embedding of `SortDirection` (`src/api/data.rs` lines 325-332). -/
inductive SortDirection where
  | ASC
  | DESC
deriving DecidableEq, Repr

/-- Serde serialization of a `SortDirection` unit variant: the variant
name itself (no rename attribute on the enum). -/
def SortDirection.serialized : SortDirection → String
  | .ASC => "ASC"
  | .DESC => "DESC"

/-- Embedding of `JobStatus` (`src/api/data.rs` lines 53-75). -/
inductive JobStatus where
  | Prechecking
  | Searching
  | Retrieving
  | Expired
  | OverFreeLimit
  | OverMaxSize
  | InvalidObject
  | BadHostNode
deriving DecidableEq, Repr

/-- Serde serialization of a `JobStatus` unit variant under the enum's
`rename_all = "snake_case"` attribute. -/
def JobStatus.serialized : JobStatus → String
  | .Prechecking => "prechecking"
  | .Searching => "searching"
  | .Retrieving => "retrieving"
  | .Expired => "expired"
  | .OverFreeLimit => "over_free_limit"
  | .OverMaxSize => "over_max_size"
  | .InvalidObject => "invalid_object"
  | .BadHostNode => "bad_host_node"

/-- Embedding of `PinJobsFilter` (`src/api/data.rs` lines 334-352).  The
struct derives `Serialize` with no `rename_all` attribute, so each field
serializes under its declared (snake_case) name. -/
structure PinJobsFilter where
  sort : Option SortDirection
  status : Option JobStatus
  ipfs_pin_hash : Option String
  limit : Option Nat
  offset : Option Nat
deriving DecidableEq, Repr

/-- Embedding of `PinJobsFilter::new` (`src/api/data.rs` lines 358-360):
the derived `Default`, with every field `None`. -/
def PinJobsFilter.new : PinJobsFilter :=
  ⟨none, none, none, none, none⟩

/-- Embedding of `PinJobsFilter::set_sort`. -/
def PinJobsFilter.set_sort (f : PinJobsFilter) (direction : SortDirection) :
    PinJobsFilter :=
  ⟨some direction, f.status, f.ipfs_pin_hash, f.limit, f.offset⟩

/-- Embedding of `PinJobsFilter::set_status`. -/
def PinJobsFilter.set_status (f : PinJobsFilter) (status : JobStatus) :
    PinJobsFilter :=
  ⟨f.sort, some status, f.ipfs_pin_hash, f.limit, f.offset⟩

/-- Embedding of `PinJobsFilter::set_ipfs_pin_hash`. -/
def PinJobsFilter.set_ipfs_pin_hash (f : PinJobsFilter) (hash : String) :
    PinJobsFilter :=
  ⟨f.sort, f.status, some hash, f.limit, f.offset⟩

/-- Embedding of `PinJobsFilter::set_limit`. -/
def PinJobsFilter.set_limit (f : PinJobsFilter) (limit : Nat) : PinJobsFilter :=
  ⟨f.sort, f.status, f.ipfs_pin_hash, some limit, f.offset⟩

/-- Embedding of `PinJobsFilter::set_offset`. -/
def PinJobsFilter.set_offset (f : PinJobsFilter) (offset : Nat) : PinJobsFilter :=
  ⟨f.sort, f.status, f.ipfs_pin_hash, f.limit, some offset⟩

/-- The query-string pairs produced when `get_pin_jobs` passes the
filter to `reqwest`'s `.query(&filters)`: the urlencoded serializer
emits one `name=value` pair per `Some` field, under the field's serde
name, and skips `None` fields. -/
def PinJobsFilter.queryParams (f : PinJobsFilter) : List (String × String) :=
  (match f.sort with
    | some d => [("sort", d.serialized)]
    | none => []) ++
  (match f.status with
    | some s => [("status", s.serialized)]
    | none => []) ++
  (match f.ipfs_pin_hash with
    | some h => [("ipfs_pin_hash", h)]
    | none => []) ++
  (match f.limit with
    | some l => [("limit", toString l)]
    | none => []) ++
  (match f.offset with
    | some o => [("offset", toString o)]
    | none => [])

/-- Modelled from the spec: the pin-list filter used by `get_pin_list`
(`api/metadata.rs` is not in the sources).  The spec describes the same
optional fields as the job filter — sort direction, status, identifier
substring match, pagination limit and offset — and states that its
query parameters use camelCase names; the crate's tests set the
identifier substring through a `set_hash_contains` builder method. -/
structure PinListFilter where
  sort : Option SortDirection
  status : Option JobStatus
  hash_contains : Option String
  limit : Option Nat
  offset : Option Nat
deriving DecidableEq, Repr

/-- Modelled from the spec: query-string pairs of a `PinListFilter`,
one pair per `Some` field under a camelCase name. -/
def PinListFilter.queryParams (f : PinListFilter) : List (String × String) :=
  (match f.sort with
    | some d => [("sort", d.serialized)]
    | none => []) ++
  (match f.status with
    | some s => [("status", s.serialized)]
    | none => []) ++
  (match f.hash_contains with
    | some h => [("hashContains", h)]
    | none => []) ++
  (match f.limit with
    | some l => [("limit", toString l)]
    | none => []) ++
  (match f.offset with
    | some o => [("offset", toString o)]
    | none => [])

/-- A camelCase identifier: nonempty, begins with a lowercase letter
and contains no underscore. -/
def isCamelCaseName (s : String) : Bool :=
  match s.data with
  | [] => false
  | c :: _ => c.isLower && !s.data.contains '_'

/-! ### Request builders: `PinByHash`, `PinByJson`, `PinByFile` in `src/api/data.rs` -/

/-- Modelled from the spec: a metadata value is a string, a numeric
value, or a deletion marker (`api/metadata.rs` is not in the sources).
The numeric payload is modelled as an integer; no claim inspects it. -/
inductive MetadataValue where
  | str (s : String)
  | number (n : Int)
  | delete
deriving DecidableEq, Repr

/-- Modelled from the spec: the `MetadataKeyValues` map of string keys
to metadata values, a `HashMap` in the crate, modelled as an
association list. -/
abbrev MetadataKeyValues := List (String × MetadataValue)

/-- Modelled from the spec: the pin metadata record, an optional display
name plus the key/value map (`api/metadata.rs` is not in the sources). -/
structure PinMetadata where
  name : Option String
  keyvalues : MetadataKeyValues
deriving DecidableEq, Repr

/-- Embedding of `Region` (`src/api/data.rs` lines 5-12). -/
inductive Region where
  | FRA1
  | NYC1
deriving DecidableEq, Repr

/-- Embedding of `RegionPolicy` (`src/api/data.rs` lines 14-22). -/
structure RegionPolicy where
  id : Region
  desired_replication_count : Nat
deriving DecidableEq, Repr

/-- Embedding of `PinPolicy` (`src/api/data.rs` lines 24-29). -/
structure PinPolicy where
  regions : List RegionPolicy
deriving DecidableEq, Repr

/-- Embedding of `PinOptions` (`src/api/data.rs` lines 91-101). -/
structure PinOptions where
  host_nodes : Option (List String)
  custom_pin_policy : Option PinPolicy
  cid_version : Option Nat
deriving DecidableEq, Repr

/-- Embedding of `PinByHash` (`src/api/data.rs` lines 103-125). -/
structure PinByHash where
  hash_to_pin : String
  pinata_metadata : Option PinMetadata
  pinata_option : Option PinOptions
deriving DecidableEq, Repr

/-- Embedding of `PinByHash::new` (`src/api/data.rs` lines 132-140). -/
def PinByHash.new (hash : String) : PinByHash :=
  ⟨hash, none, none⟩

/-- Embedding of `PinByHash::set_metadata` (`src/api/data.rs` lines
143-152): installs metadata with the given keyvalues and name `None`,
keeping the hash and the options. -/
def PinByHash.set_metadata (self : PinByHash) (keyvalues : MetadataKeyValues) :
    PinByHash :=
  ⟨self.hash_to_pin, some ⟨none, keyvalues⟩, self.pinata_option⟩

/-- Embedding of `PinByHash::set_metadata_with_name` (`src/api/data.rs`
lines 155-166). -/
def PinByHash.set_metadata_with_name (self : PinByHash) (name : String)
    (keyvalues : MetadataKeyValues) : PinByHash :=
  ⟨self.hash_to_pin, some ⟨some name, keyvalues⟩, self.pinata_option⟩

/-- Embedding of `PinByHash::set_options` (`src/api/data.rs` lines
169-175). -/
def PinByHash.set_options (self : PinByHash) (options : PinOptions) : PinByHash :=
  ⟨self.hash_to_pin, self.pinata_metadata, some options⟩

/-- Embedding of `PinByJson<S>` (`src/api/data.rs` lines 178-204),
generic over the serializable content type. -/
structure PinByJson (S : Type) where
  pinata_content : S
  pinata_metadata : Option PinMetadata
  pinata_option : Option PinOptions

/-- Embedding of `PinByJson::new` (`src/api/data.rs` lines 213-219). -/
def PinByJson.new {S : Type} (json_data : S) : PinByJson S :=
  ⟨json_data, none, none⟩

/-- Embedding of `PinByJson::set_metadata` (`src/api/data.rs` lines
222-228). -/
def PinByJson.set_metadata {S : Type} (self : PinByJson S)
    (keyvalues : MetadataKeyValues) : PinByJson S :=
  ⟨self.pinata_content, some ⟨none, keyvalues⟩, self.pinata_option⟩

/-- Embedding of `PinByJson::set_metadata_with_name` (`src/api/data.rs`
lines 231-242). -/
def PinByJson.set_metadata_with_name {S : Type} (self : PinByJson S)
    (name : String) (keyvalues : MetadataKeyValues) : PinByJson S :=
  ⟨self.pinata_content, some ⟨some name, keyvalues⟩, self.pinata_option⟩

/-- Embedding of `PinByJson::set_options` (`src/api/data.rs` lines
245-248). -/
def PinByJson.set_options {S : Type} (self : PinByJson S) (options : PinOptions) :
    PinByJson S :=
  ⟨self.pinata_content, self.pinata_metadata, some options⟩

/-- Embedding of `FileData` (`src/api/data.rs` lines 251-255). -/
structure FileData where
  file_path : String
deriving DecidableEq, Repr

/-- Embedding of `PinByFile` (`src/api/data.rs` lines 273-277). -/
structure PinByFile where
  files : List FileData
  pinata_metadata : Option PinMetadata
  pinata_option : Option PinOptions
deriving DecidableEq, Repr

/-- Embedding of `PinByFile::new` (`src/api/data.rs` lines 284-293): a
single `FileData` holding the given path, no metadata, no options. -/
def PinByFile.new (file_or_dir_path : String) : PinByFile :=
  ⟨[⟨file_or_dir_path⟩], none, none⟩

/-- Embedding of `PinByFile::set_metadata` (`src/api/data.rs` lines
296-302). -/
def PinByFile.set_metadata (self : PinByFile) (keyvalues : MetadataKeyValues) :
    PinByFile :=
  ⟨self.files, some ⟨none, keyvalues⟩, self.pinata_option⟩

/-- Embedding of `PinByFile::set_metadata_with_name` (`src/api/data.rs`
lines 305-316). -/
def PinByFile.set_metadata_with_name (self : PinByFile) (name : String)
    (keyvalues : MetadataKeyValues) : PinByFile :=
  ⟨self.files, some ⟨some name, keyvalues⟩, self.pinata_option⟩

/-- Embedding of `PinByFile::set_options` (`src/api/data.rs` lines
319-322). -/
def PinByFile.set_options (self : PinByFile) (options : PinOptions) : PinByFile :=
  ⟨self.files, self.pinata_metadata, some options⟩

/-! ### File-system model for `pin_file` (`src/lib.rs` lines 186-232)

The assembly loop walks the operating system's file tree through
`WalkDir`, reads files with `fs::read`, and turns OS path components
into Rust strings with `OsStr::to_str` (which fails on non-UTF-8
names).  The file system is modelled as a finite tree whose nodes
record the outcomes the OS would report: the bytes or I/O error of
reading each file, a walk error for an unreadable directory, and for
each name whether it is valid UTF-8. -/

/-- File contents, a byte vector. -/
abbrev Bytes := List Nat

/-- An OS file name: either valid UTF-8 (carrying its decoding) or not
(carrying an identifier only, `OsStr::to_str` returning `None`). -/
inductive OsName where
  | valid (s : String)
  | invalid (id : Nat)
deriving DecidableEq, Repr

/-- Embedding of `OsStr::to_str`. -/
def OsName.toStr : OsName → Option String
  | .valid s => some s
  | .invalid _ => none

/-- An error raised while assembling the upload: an `std::io::Error`
from `fs::read`, or a `walkdir::Error` from the directory walk.  (The
`StripPrefixError` of `Path::strip_prefix` cannot arise: every walked
path extends the base path, so the model has no constructor for it.) -/
inductive FileError where
  | ioRead (code : Nat)
  | walkFail (code : Nat)
deriving DecidableEq, Repr

mutual
/-- A node of the file-system tree: a file (with the outcome `fs::read`
would produce), a directory whose contents cannot be listed (the walk
yields an error), or a readable directory with named entries. -/
inductive FsTree where
  | file (read : Except FileError Bytes)
  | dirUnreadable (e : FileError)
  | dir (entries : FsEntries)
deriving Repr
/-- The ordered named entries of a directory. -/
inductive FsEntries where
  | nil
  | cons (name : OsName) (tree : FsTree) (rest : FsEntries)
deriving Repr
end

/-- The names of a directory's immediate entries, in order. -/
def entryNames : FsEntries → List OsName
  | .nil => []
  | .cons n _ rest => n :: entryNames rest

/-- One event yielded by iterating `WalkDir::new(base)`: an entry for a
directory, an entry for a file (with its eventual read outcome), or a
walk error.  `rel` is the path relative to the base, as components. -/
inductive WalkEvent where
  | dirEntry (rel : List OsName)
  | fileEntry (rel : List OsName) (read : Except FileError Bytes)
  | failure (e : FileError)
deriving Repr

mutual
/-- Embedding of the `WalkDir` iteration order: an entry for the
visited node itself first (depth-first, directories before their
contents), then its children in order; an unreadable directory yields
its own entry and then an error. -/
def walkFrom (rel : List OsName) : FsTree → List WalkEvent
  | .file read => [.fileEntry rel read]
  | .dirUnreadable e => [.dirEntry rel, .failure e]
  | .dir es => .dirEntry rel :: walkEntries rel es
/-- Walk events of a directory's entries, concatenated in order. -/
def walkEntries (rel : List OsName) : FsEntries → List WalkEvent
  | .nil => []
  | .cons n t rest => walkFrom (rel ++ [n]) t ++ walkEntries rel rest
end

/-- Decodes every component of a relative path, `none` as soon as one
is not valid UTF-8 (as `OsStr::to_str` on the whole path would be). -/
def namesToStr : List OsName → Option (List String)
  | [] => some []
  | n :: rest =>
    match n.toStr, namesToStr rest with
    | some s, some ss => some (s :: ss)
    | _, _ => none

/-- The string Rust's `Path::to_str` produces for a relative path with
the given (valid UTF-8) components: components joined by a slash. -/
def relPathString : List String → String
  | [] => ""
  | [c] => c
  | c :: rest => c ++ "/" ++ relPathString rest

/-- Embedding of `path_name.to_str()` on a walked relative path. -/
def relPathStr (rel : List OsName) : Option String :=
  (namesToStr rel).map relPathString

/-- One multipart file part assembled by the loop: the multipart field
name passed to `Form::part` (always the literal `"file"`), the
filename installed with `Part::file_name`, and the bytes. -/
structure FilePart where
  fieldName : String
  fileName : String
  content : Bytes
deriving DecidableEq, Repr

/-- Embedding of the directory branch of the `pin_file` loop
(`src/lib.rs` lines 193-210), processing the walk events in order:
a walk error propagates via the question mark; a directory entry is
skipped; for a file entry the part filename
`format!("{}/{}", base_path.file_name().unwrap().to_str().unwrap(), path_name.to_str().unwrap())`
is computed (each `unwrap` panicking, modelled as `none`), then the
file is read (an I/O error propagating), and the part is appended.
The outer `Option` is a panic; the inner `Except` the early return. -/
def processEvents (baseName : Option OsName) :
    List WalkEvent → Option (Except FileError (List FilePart))
  | [] => some (.ok [])
  | .failure e :: _ => some (.error e)
  | .dirEntry _ :: rest => processEvents baseName rest
  | .fileEntry rel read :: rest =>
    match baseName with
    | none => none
    | some bn =>
      match bn.toStr with
      | none => none
      | some bs =>
        match relPathStr rel with
        | none => none
        | some rs =>
          match read with
          | .error e => some (.error e)
          | .ok content =>
            match processEvents baseName rest with
            | none => none
            | some (.error e) => some (.error e)
            | some (.ok parts) => some (.ok (⟨"file", bs ++ "/" ++ rs, content⟩ :: parts))

/-- What the operating system reports about one path handed to
`pin_file`: the result of `Path::file_name()` (none for paths such as
`/` or a path ending in `..`), and the file-system object the path
resolves to. -/
structure PathInput where
  fileName : Option OsName
  tree : FsTree
deriving Repr

/-- Embedding of one iteration of the `pin_file` loop over
`pin_data.files` (`src/lib.rs` lines 189-216): the directory branch
walks the tree; the file branch computes
`base_path.file_name().unwrap().to_str().unwrap()` (panics modelled as
`none`), reads the file and produces a single part named by the base
name. -/
def assembleInput (input : PathInput) : Option (Except FileError (List FilePart)) :=
  match input.tree with
  | .file read =>
    match input.fileName with
    | none => none
    | some bn =>
      match bn.toStr with
      | none => none
      | some s =>
        match read with
        | .error e => some (.error e)
        | .ok content => some (.ok [⟨"file", s, content⟩])
  | .dirUnreadable e => processEvents input.fileName (walkFrom [] (.dirUnreadable e))
  | .dir es => processEvents input.fileName (walkFrom [] (.dir es))

/-- Embedding of the full `pin_file` loop: each path of
`pin_data.files` is assembled in order, the first panic or error
cutting the whole assembly short, and the parts concatenated. -/
def assembleFiles : List PathInput → Option (Except FileError (List FilePart))
  | [] => some (.ok [])
  | input :: rest =>
    match assembleInput input with
    | none => none
    | some (.error e) => some (.error e)
    | some (.ok parts) =>
      match assembleFiles rest with
      | none => none
      | some (.error e) => some (.error e)
      | some (.ok more) => some (.ok (parts ++ more))

/-- The HTTP request `pin_file` would send: the endpoint, the file
parts of the multipart form, and the optional `pinataMetadata` and
`pinataOptions` text fields (the code attaches their JSON encodings;
the model carries the records themselves, no claim inspecting the
encoded text). -/
structure UploadRequest where
  url : String
  fileParts : List FilePart
  metadataField : Option PinMetadata
  optionsField : Option PinOptions
deriving DecidableEq, Repr

/-- Embedding of `PinataApi::pin_file` (`src/lib.rs` lines 186-232) up
to the point the HTTP request is issued.  `fs` maps each path string of
the request to what the operating system reports for it.  A panic in
the assembly is `none`; an assembly error returns before any request
is built; otherwise the multipart request for
`/pinning/pinFileToIPFS` is produced. -/
def pin_file (fs : String → PathInput) (pin_data : PinByFile) :
    Option (Except FileError UploadRequest) :=
  match assembleFiles (pin_data.files.map fun fd => fs fd.file_path) with
  | none => none
  | some (.error e) => some (.error e)
  | some (.ok parts) =>
    some (.ok ⟨"https://api.pinata.cloud/pinning/pinFileToIPFS", parts,
      pin_data.pinata_metadata, pin_data.pinata_option⟩)

/-! ### Independent characterisations of the tree used by the theorems -/

mutual
/-- Direct recursive enumeration of the non-directory entries of a
tree: for each file, its relative path components (decoded to strings)
and its bytes, in depth-first order; `none` if some name is not valid
UTF-8, some file is unreadable, or some directory cannot be listed.
This definition is the spec-side description the walk-based assembly
is compared against. -/
def tryFilesT : FsTree → Option (List (List String × Bytes))
  | .file (.ok content) => some [([], content)]
  | .file (.error _) => none
  | .dirUnreadable _ => none
  | .dir es => tryFilesE es
/-- File enumeration of a directory's entries, in order. -/
def tryFilesE : FsEntries → Option (List (List String × Bytes))
  | .nil => some []
  | .cons n t rest =>
    match n.toStr, tryFilesT t, tryFilesE rest with
    | some s, some here, some more =>
      some (here.map (fun q => (s :: q.1, q.2)) ++ more)
    | _, _, _ => none
end

mutual
/-- Every name in the tree is valid UTF-8. -/
def allValidT : FsTree → Prop
  | .file _ => True
  | .dirUnreadable _ => True
  | .dir es => allValidE es
/-- Every name under the entries is valid UTF-8. -/
def allValidE : FsEntries → Prop
  | .nil => True
  | .cons n t rest => (n.toStr).isSome ∧ allValidT t ∧ allValidE rest
end

/-- A well-formed OS file name: valid UTF-8, nonempty, and containing
no slash (operating systems forbid empty names and separators inside a
name). -/
def goodName : OsName → Prop
  | .valid s => s.data ≠ [] ∧ '/' ∉ s.data
  | .invalid _ => False

mutual
/-- Well-formedness of a real file-system tree: every directory's
entry names are pairwise distinct, and every name is a well-formed
file name. -/
def goodT : FsTree → Prop
  | .file _ => True
  | .dirUnreadable _ => True
  | .dir es => (entryNames es).Nodup ∧ goodE es
/-- Well-formedness of a directory's entries. -/
def goodE : FsEntries → Prop
  | .nil => True
  | .cons n t rest => goodName n ∧ goodT t ∧ goodE rest
end

/-- The first error a walk iteration would surface, in event order: a
walk failure, or the read error of a file entry.  (With valid names,
this is exactly the first early return of the assembly loop.) -/
def firstWalkError : List WalkEvent → Option FileError
  | [] => none
  | .failure e :: _ => some e
  | .fileEntry _ (.error e) :: _ => some e
  | .fileEntry _ (.ok _) :: rest => firstWalkError rest
  | .dirEntry _ :: rest => firstWalkError rest

/-- The first error the assembly of one path input would surface: the
read error of a single file, or the first error of the directory
walk. -/
def firstErrorOfInput (input : PathInput) : Option FileError :=
  match input.tree with
  | .file (.error e) => some e
  | .file (.ok _) => none
  | .dirUnreadable e => firstWalkError (walkFrom [] (.dirUnreadable e))
  | .dir es => firstWalkError (walkFrom [] (.dir es))

/-! ### Concrete example inputs used by the witnesses -/

/-- A directory `d` containing `a.txt` and `sub/b.txt`, the example of
the spec's testable properties. -/
def exampleDirTree : FsTree :=
  .dir (.cons (.valid "a.txt") (.file (.ok [1, 2]))
    (.cons (.valid "sub")
      (.dir (.cons (.valid "b.txt") (.file (.ok [3])) .nil)) .nil))

/-- A file system in which every path resolves to the directory
`exampleDirTree` under the base name `d`. -/
def exampleDirFs : String → PathInput :=
  fun _ => ⟨some (.valid "d"), exampleDirTree⟩

/-- A file system in which every path resolves to a single readable
file named `f.txt`. -/
def exampleFileFs : String → PathInput :=
  fun _ => ⟨some (.valid "f.txt"), .file (.ok [9, 9])⟩

/-- A directory `d` whose only entry `bad` cannot be read. -/
def exampleErrFs : String → PathInput :=
  fun _ => ⟨some (.valid "d"),
    .dir (.cons (.valid "bad") (.file (.error (.ioRead 7))) .nil)⟩

/-- A file system in which every path resolves to the root directory:
`Path::file_name()` reports no base name. -/
def exampleRootFs : String → PathInput :=
  fun _ => ⟨none, exampleDirTree⟩

/-- A file system whose single file has a non-UTF-8 base name. -/
def exampleNonUtf8Fs : String → PathInput :=
  fun _ => ⟨some (.invalid 0), .file (.ok [7])⟩

/-! ### Theorems for the claims about construction, the response mapper,
the filters and the builders -/

/-- C3: for every pair of credential strings, constructing a client
fails whenever the api key or the secret api key is the empty string;
the emptiness check runs before any other construction step, so an
empty credential never yields a successfully constructed client (nor a
panic). -/
theorem pinataApiNew_empty_credential_fails (api_key secret_api_key : String)
    (h : api_key = "" ∨ secret_api_key = "") :
    (pinataApiNew api_key secret_api_key = some (.error .invalidApiKey) ∨
      pinataApiNew api_key secret_api_key = some (.error .invalidSecretApiKey)) ∧
    ∀ c : PinataApi, pinataApiNew api_key secret_api_key ≠ some (.ok c) := by
  have main : pinataApiNew api_key secret_api_key = some (.error .invalidApiKey) ∨
      pinataApiNew api_key secret_api_key = some (.error .invalidSecretApiKey) := by
    rcases h with h | h
    · subst h
      left
      rfl
    · subst h
      have h0 : "".isEmpty = true := by decide
      by_cases hk : api_key.isEmpty
      · left
        simp [pinataApiNew, validate_keys, hk]
      · right
        simp [pinataApiNew, validate_keys, hk, h0]
  refine ⟨main, fun c hc => ?_⟩
  rcases main with h' | h' <;> rw [h'] at hc <;> simp at hc

/-- Witness for the C3 theorem at the concrete pair `("", "secret")`. -/
theorem pinataApiNew_empty_credential_fails_witness :
    (pinataApiNew "" "secret" = some (.error .invalidApiKey) ∨
      pinataApiNew "" "secret" = some (.error .invalidSecretApiKey)) ∧
    ∀ c : PinataApi, pinataApiNew "" "secret" ≠ some (.ok c) :=
  pinataApiNew_empty_credential_fails "" "secret" (Or.inl rfl)

/-- C2: for every response with a non-success (non-2xx) status, the
response mappers `parse_result` and `parse_ok_result` never return a
success; they return the generic service error carrying the message
decoded from the error envelope, or a decoding error when even the
envelope cannot be decoded. -/
theorem parse_result_non_success_is_generic_error {R : Type}
    (response : HttpResponse R) (h : statusIsSuccess response.status = false) :
    (∀ r : R, parse_result response ≠ .ok r) ∧
    (∀ u : Unit, parse_ok_result response ≠ .ok u) ∧
    (∀ err, response.decodeErrorEnvelope = .ok err →
      parse_result response = .error (.genericError err.message) ∧
      parse_ok_result response = .error (.genericError err.message)) ∧
    (∀ e, response.decodeErrorEnvelope = .error e →
      parse_result response = .error (.decodingError e) ∧
      parse_ok_result response = .error (.decodingError e)) := by
  refine ⟨?_, ?_, ?_, ?_⟩
  · intro r hr
    rw [parse_result, h] at hr
    rcases henv : response.decodeErrorEnvelope with e | err <;>
      rw [henv] at hr <;> simp at hr
  · intro u hu
    rw [parse_ok_result, h] at hu
    rcases henv : response.decodeErrorEnvelope with e | err <;>
      rw [henv] at hu <;> simp at hu
  · intro err henv
    rw [parse_result, parse_ok_result, h, henv]
    exact ⟨rfl, rfl⟩
  · intro e henv
    rw [parse_result, parse_ok_result, h, henv]
    exact ⟨rfl, rfl⟩

/-- Witness for the C2 theorem: a 404 response whose envelope decodes
to the message "not found". -/
theorem parse_result_non_success_witness :
    (∀ r : Nat, parse_result (R := Nat) ⟨404, .error ⟨1⟩, .ok ⟨"not found"⟩⟩ ≠ .ok r) ∧
    (∀ u : Unit, parse_ok_result (R := Nat) ⟨404, .error ⟨1⟩, .ok ⟨"not found"⟩⟩ ≠ .ok u) ∧
    (∀ err, (⟨404, .error ⟨1⟩, .ok ⟨"not found"⟩⟩ : HttpResponse Nat).decodeErrorEnvelope = .ok err →
      parse_result (R := Nat) ⟨404, .error ⟨1⟩, .ok ⟨"not found"⟩⟩ = .error (.genericError err.message) ∧
      parse_ok_result (R := Nat) ⟨404, .error ⟨1⟩, .ok ⟨"not found"⟩⟩ = .error (.genericError err.message)) ∧
    (∀ e, (⟨404, .error ⟨1⟩, .ok ⟨"not found"⟩⟩ : HttpResponse Nat).decodeErrorEnvelope = .error e →
      parse_result (R := Nat) ⟨404, .error ⟨1⟩, .ok ⟨"not found"⟩⟩ = .error (.decodingError e) ∧
      parse_ok_result (R := Nat) ⟨404, .error ⟨1⟩, .ok ⟨"not found"⟩⟩ = .error (.decodingError e)) :=
  parse_result_non_success_is_generic_error (R := Nat) ⟨404, .error ⟨1⟩, .ok ⟨"not found"⟩⟩ (by decide)

/-- C7: the empty filter serializes to zero query parameters, and each
of the five setters applied to the empty filter yields exactly the one
corresponding query parameter. -/
theorem pinJobsFilter_setters_one_param :
    PinJobsFilter.new.queryParams = [] ∧
    (∀ d, (PinJobsFilter.new.set_sort d).queryParams = [("sort", d.serialized)]) ∧
    (∀ s, (PinJobsFilter.new.set_status s).queryParams = [("status", s.serialized)]) ∧
    (∀ h, (PinJobsFilter.new.set_ipfs_pin_hash h).queryParams = [("ipfs_pin_hash", h)]) ∧
    (∀ l, (PinJobsFilter.new.set_limit l).queryParams = [("limit", toString l)]) ∧
    (∀ o, (PinJobsFilter.new.set_offset o).queryParams = [("offset", toString o)]) :=
  ⟨rfl, fun _ => rfl, fun _ => rfl, fun _ => rfl, fun _ => rfl, fun _ => rfl⟩

/-- C10: for each request builder, `set_options` leaves the
content/hash and the metadata unchanged, the two metadata setters leave
the content/hash and the options unchanged, `set_metadata` installs
metadata whose name is `None` (erasing a previously installed name),
and `set_metadata_with_name` installs the given name: the last metadata
setter called fully determines the metadata. -/
theorem builder_setters_frame :
    (∀ (b : PinByHash) (o : PinOptions),
      (b.set_options o).hash_to_pin = b.hash_to_pin ∧
      (b.set_options o).pinata_metadata = b.pinata_metadata ∧
      (b.set_options o).pinata_option = some o) ∧
    (∀ (b : PinByHash) (kv : MetadataKeyValues),
      (b.set_metadata kv).hash_to_pin = b.hash_to_pin ∧
      (b.set_metadata kv).pinata_option = b.pinata_option ∧
      (b.set_metadata kv).pinata_metadata = some ⟨none, kv⟩) ∧
    (∀ (b : PinByHash) (n : String) (kv : MetadataKeyValues),
      (b.set_metadata_with_name n kv).hash_to_pin = b.hash_to_pin ∧
      (b.set_metadata_with_name n kv).pinata_option = b.pinata_option ∧
      (b.set_metadata_with_name n kv).pinata_metadata = some ⟨some n, kv⟩) ∧
    (∀ (b : PinByHash) (n : String) (kv kv' : MetadataKeyValues),
      ((b.set_metadata_with_name n kv).set_metadata kv').pinata_metadata =
        some ⟨none, kv'⟩) ∧
    (∀ (S : Type) (b : PinByJson S) (o : PinOptions),
      (b.set_options o).pinata_content = b.pinata_content ∧
      (b.set_options o).pinata_metadata = b.pinata_metadata ∧
      (b.set_options o).pinata_option = some o) ∧
    (∀ (S : Type) (b : PinByJson S) (kv : MetadataKeyValues),
      (b.set_metadata kv).pinata_content = b.pinata_content ∧
      (b.set_metadata kv).pinata_option = b.pinata_option ∧
      (b.set_metadata kv).pinata_metadata = some ⟨none, kv⟩) ∧
    (∀ (S : Type) (b : PinByJson S) (n : String) (kv : MetadataKeyValues),
      (b.set_metadata_with_name n kv).pinata_content = b.pinata_content ∧
      (b.set_metadata_with_name n kv).pinata_option = b.pinata_option ∧
      (b.set_metadata_with_name n kv).pinata_metadata = some ⟨some n, kv⟩) ∧
    (∀ (S : Type) (b : PinByJson S) (n : String) (kv kv' : MetadataKeyValues),
      ((b.set_metadata_with_name n kv).set_metadata kv').pinata_metadata =
        some ⟨none, kv'⟩) ∧
    (∀ (b : PinByFile) (o : PinOptions),
      (b.set_options o).files = b.files ∧
      (b.set_options o).pinata_metadata = b.pinata_metadata ∧
      (b.set_options o).pinata_option = some o) ∧
    (∀ (b : PinByFile) (kv : MetadataKeyValues),
      (b.set_metadata kv).files = b.files ∧
      (b.set_metadata kv).pinata_option = b.pinata_option ∧
      (b.set_metadata kv).pinata_metadata = some ⟨none, kv⟩) ∧
    (∀ (b : PinByFile) (n : String) (kv : MetadataKeyValues),
      (b.set_metadata_with_name n kv).files = b.files ∧
      (b.set_metadata_with_name n kv).pinata_option = b.pinata_option ∧
      (b.set_metadata_with_name n kv).pinata_metadata = some ⟨some n, kv⟩) ∧
    (∀ (b : PinByFile) (n : String) (kv kv' : MetadataKeyValues),
      ((b.set_metadata_with_name n kv).set_metadata kv').pinata_metadata =
        some ⟨none, kv'⟩) :=
  ⟨fun _ _ => ⟨rfl, rfl, rfl⟩, fun _ _ => ⟨rfl, rfl, rfl⟩,
    fun _ _ _ => ⟨rfl, rfl, rfl⟩, fun _ _ _ _ => rfl,
    fun _ _ _ => ⟨rfl, rfl, rfl⟩, fun _ _ _ => ⟨rfl, rfl, rfl⟩,
    fun _ _ _ _ => ⟨rfl, rfl, rfl⟩, fun _ _ _ _ _ => rfl,
    fun _ _ => ⟨rfl, rfl, rfl⟩, fun _ _ => ⟨rfl, rfl, rfl⟩,
    fun _ _ _ => ⟨rfl, rfl, rfl⟩, fun _ _ _ _ => rfl⟩

/-- C6 counterexample: serializing the filter obtained by
`set_ipfs_pin_hash` produces a query parameter named `ipfs_pin_hash`
(the struct has no serde rename attribute), and that name is not
camelCase — refuting the claim that every filter query parameter has a
camelCase name. -/
theorem pinJobsFilter_param_not_camelCase :
    ("ipfs_pin_hash", "QmX") ∈ (PinJobsFilter.new.set_ipfs_pin_hash "QmX").queryParams ∧
    isCamelCaseName "ipfs_pin_hash" = false := by
  constructor
  · show ("ipfs_pin_hash", "QmX") ∈ [("ipfs_pin_hash", "QmX")]
    exact List.mem_singleton_self _
  · decide

/-- C6 amended: every query parameter of a serialized `PinJobsFilter`
carries the Rust field's own name; all of them are camelCase except
the identifier-substring parameter, which serializes under the
snake_case name `ipfs_pin_hash`.  The parameters of the spec-modelled
`PinListFilter` are all camelCase. -/
theorem filter_param_names_characterised :
    (∀ (f : PinJobsFilter) (p : String × String), p ∈ f.queryParams →
      p.1 = "sort" ∨ p.1 = "status" ∨ p.1 = "ipfs_pin_hash" ∨
        p.1 = "limit" ∨ p.1 = "offset") ∧
    (∀ (f : PinJobsFilter) (p : String × String), p ∈ f.queryParams →
      p.1 = "ipfs_pin_hash" ∨ isCamelCaseName p.1 = true) ∧
    (∀ (f : PinListFilter) (p : String × String), p ∈ f.queryParams →
      isCamelCaseName p.1 = true) := by
  refine ⟨?_, ?_, ?_⟩
  · rintro ⟨s, st, h, l, o⟩ p hp
    simp only [PinJobsFilter.queryParams, List.mem_append] at hp
    rcases hp with ((((hp | hp) | hp) | hp) | hp) <;>
      [cases s; cases st; cases h; cases l; cases o] <;>
      simp_all
  · rintro ⟨s, st, h, l, o⟩ p hp
    simp only [PinJobsFilter.queryParams, List.mem_append] at hp
    rcases hp with ((((hp | hp) | hp) | hp) | hp) <;>
      [cases s; cases st; cases h; cases l; cases o] <;>
      simp_all <;> subst hp <;> decide
  · rintro ⟨s, st, h, l, o⟩ p hp
    simp only [PinListFilter.queryParams, List.mem_append] at hp
    rcases hp with ((((hp | hp) | hp) | hp) | hp) <;>
      [cases s; cases st; cases h; cases l; cases o] <;>
      simp_all <;> subst hp <;> decide

/-- Witness for the C6 amended theorem at the filter that sets only the
sort direction. -/
theorem filter_param_names_characterised_witness :
    ("sort", "ASC").1 = "ipfs_pin_hash" ∨ isCamelCaseName ("sort", "ASC").1 = true :=
  filter_param_names_characterised.2.1 (PinJobsFilter.new.set_sort .ASC)
    ("sort", "ASC") (by simp [PinJobsFilter.queryParams, PinJobsFilter.new, PinJobsFilter.set_sort, SortDirection.serialized])

/-! ### Helper lemmas about the walk and the assembly -/

theorem namesToStr_append (l₁ l₂ : List OsName) (s₁ s₂ : List String)
    (h₁ : namesToStr l₁ = some s₁) (h₂ : namesToStr l₂ = some s₂) :
    namesToStr (l₁ ++ l₂) = some (s₁ ++ s₂) := by
  induction l₁ generalizing s₁ with
  | nil =>
    simp [namesToStr] at h₁
    subst h₁
    simpa using h₂
  | cons n rest ih =>
    simp only [namesToStr, List.cons_append] at h₁ ⊢
    cases hn : n.toStr with
    | none => simp [hn] at h₁
    | some s =>
      cases hr : namesToStr rest with
      | none => simp [hn, hr] at h₁
      | some ss =>
        simp only [hn, hr, Option.some.injEq] at h₁
        subst h₁
        simp only [List.append_eq]
        rw [ih ss hr]
        simp

theorem processEvents_append_ok (bn : Option OsName) (l₁ l₂ : List WalkEvent)
    (p₁ p₂ : List FilePart)
    (h₁ : processEvents bn l₁ = some (.ok p₁))
    (h₂ : processEvents bn l₂ = some (.ok p₂)) :
    processEvents bn (l₁ ++ l₂) = some (.ok (p₁ ++ p₂)) := by
  induction l₁ generalizing p₁ with
  | nil =>
    simp [processEvents] at h₁
    subst h₁
    simpa using h₂
  | cons ev rest ih =>
    cases ev with
    | failure e => simp [processEvents] at h₁
    | dirEntry rel =>
      rw [List.cons_append]
      have hskip : ∀ l, processEvents bn (WalkEvent.dirEntry rel :: l) =
          processEvents bn l := fun _ => rfl
      rw [hskip]
      rw [hskip] at h₁
      exact ih p₁ h₁
    | fileEntry rel read =>
      rw [List.cons_append]
      cases bn with
      | none => simp [processEvents] at h₁
      | some b =>
        cases hb : b.toStr with
        | none => simp [processEvents, hb] at h₁
        | some bs =>
          cases hrs : relPathStr rel with
          | none => simp [processEvents, hb, hrs] at h₁
          | some rs =>
            cases read with
            | error e => simp [processEvents, hb, hrs] at h₁
            | ok content =>
              cases hrest : processEvents (some b) rest with
              | none => simp [processEvents, hb, hrs, hrest] at h₁
              | some res =>
                cases res with
                | error e => simp [processEvents, hb, hrs, hrest] at h₁
                | ok parts =>
                  simp only [processEvents, hb, hrs, hrest] at h₁
                  simp only [Option.some.injEq, Except.ok.injEq] at h₁
                  subst h₁
                  simp only [processEvents, hb, hrs, ih parts hrest]
                  simp

theorem walkEntries_processed (bn : OsName) (bs : String) (hb : bn.toStr = some bs)
    (es : FsEntries) (fl : List (List String × Bytes)) (pre : List OsName)
    (spre : List String) (hf : tryFilesE es = some fl)
    (hp : namesToStr pre = some spre) :
    processEvents (some bn) (walkEntries pre es) =
      some (.ok (fl.map fun q =>
        (⟨"file", bs ++ "/" ++ relPathString (spre ++ q.1), q.2⟩ : FilePart))) := by
  cases es with
  | nil =>
    simp [tryFilesE] at hf
    subst hf
    simp [walkEntries, processEvents]
  | cons n t rest =>
    simp only [tryFilesE] at hf
    cases hn : n.toStr with
    | none => simp [hn] at hf
    | some s =>
      cases ht : tryFilesT t with
      | none => simp [hn, ht] at hf
      | some here =>
        cases hr : tryFilesE rest with
        | none => simp [hn, ht, hr] at hf
        | some more =>
          simp only [hn, ht, hr, Option.some.injEq] at hf
          subst hf
          rw [show walkEntries pre (.cons n t rest) =
              walkFrom (pre ++ [n]) t ++ walkEntries pre rest from rfl]
          have hpre' : namesToStr (pre ++ [n]) = some (spre ++ [s]) := by
            apply namesToStr_append _ _ _ _ hp
            simp [namesToStr, hn]
          have hrest := walkEntries_processed bn bs hb rest more pre spre hr hp
          have hleft : processEvents (some bn) (walkFrom (pre ++ [n]) t) =
              some (.ok (here.map fun q =>
                (⟨"file", bs ++ "/" ++ relPathString ((spre ++ [s]) ++ q.1), q.2⟩ : FilePart))) := by
            cases t with
            | file read =>
              cases read with
              | error e => simp [tryFilesT] at ht
              | ok content =>
                simp only [tryFilesT, Option.some.injEq] at ht
                subst ht
                simp [walkFrom, processEvents, hb, relPathStr, hpre']
            | dirUnreadable e => simp [tryFilesT] at ht
            | dir es' =>
              simp only [tryFilesT] at ht
              rw [show walkFrom (pre ++ [n]) (.dir es') =
                  .dirEntry (pre ++ [n]) :: walkEntries (pre ++ [n]) es' from rfl]
              rw [show ∀ l, processEvents (some bn) (WalkEvent.dirEntry (pre ++ [n]) :: l) =
                  processEvents (some bn) l from fun _ => rfl]
              exact walkEntries_processed bn bs hb es' here (pre ++ [n]) (spre ++ [s]) ht hpre'
          rw [processEvents_append_ok _ _ _ _ _ hleft hrest]
          have hfix : ∀ q : List String × Bytes,
              (⟨"file", bs ++ "/" ++ relPathString ((spre ++ [s]) ++ q.1), q.2⟩ : FilePart) =
              (⟨"file", bs ++ "/" ++ relPathString (spre ++ (s :: q.1)), q.2⟩ : FilePart) := by
            intro q
            rw [List.append_assoc]
            rfl
          simp [List.map_append, List.map_map, Function.comp, hfix]
termination_by sizeOf es

/-- C1: for every directory path given to `pin_file`, the upload
assembly produces exactly one multipart part per non-directory entry
reachable under the directory (none for directory entries), and the
part for each file carries the name
`{directory_base_name}/{path_relative_to_directory}`: the part list is
exactly the direct file enumeration of the tree, mapped to parts so
named. -/
theorem pin_file_directory_parts (fs : String → PathInput) (p : String)
    (bn : OsName) (bs : String) (es : FsEntries) (fl : List (List String × Bytes))
    (htree : (fs p).tree = .dir es)
    (hname : (fs p).fileName = some bn)
    (hb : bn.toStr = some bs)
    (hfl : tryFilesE es = some fl) :
    pin_file fs (PinByFile.new p) =
      some (.ok ⟨"https://api.pinata.cloud/pinning/pinFileToIPFS",
        fl.map fun q => (⟨"file", bs ++ "/" ++ relPathString q.1, q.2⟩ : FilePart),
        none, none⟩) := by
  rcases hfs : fs p with ⟨fn, tr⟩
  rw [hfs] at htree hname
  simp only at htree hname
  subst htree
  subst hname
  have hassemble : assembleInput ⟨some bn, .dir es⟩ =
      some (.ok (fl.map fun q =>
        (⟨"file", bs ++ "/" ++ relPathString q.1, q.2⟩ : FilePart))) := by
    rw [show assembleInput ⟨some bn, .dir es⟩ =
        processEvents (some bn) (walkFrom [] (.dir es)) from rfl]
    rw [show walkFrom [] (FsTree.dir es) = .dirEntry [] :: walkEntries [] es from rfl]
    rw [show ∀ l, processEvents (some bn) (WalkEvent.dirEntry [] :: l) =
        processEvents (some bn) l from fun _ => rfl]
    have := walkEntries_processed bn bs hb es fl [] [] hfl rfl
    simpa using this
  simp [pin_file, PinByFile.new, assembleFiles, hfs, hassemble]

/-- Witness for the C1 theorem: the spec's example, a directory `d`
holding `a.txt` and `sub/b.txt`, produces exactly the two parts named
`d/a.txt` and `d/sub/b.txt`. -/
theorem pin_file_directory_parts_witness :
    pin_file exampleDirFs (PinByFile.new "d") =
      some (.ok ⟨"https://api.pinata.cloud/pinning/pinFileToIPFS",
        [⟨"file", "d/a.txt", [1, 2]⟩, ⟨"file", "d/sub/b.txt", [3]⟩],
        none, none⟩) :=
  pin_file_directory_parts exampleDirFs "d" (.valid "d") "d"
    (.cons (.valid "a.txt") (.file (.ok [1, 2]))
      (.cons (.valid "sub")
        (.dir (.cons (.valid "b.txt") (.file (.ok [3])) .nil)) .nil))
    [(["a.txt"], [1, 2]), (["sub", "b.txt"], [3])] rfl rfl rfl rfl

/-- C4: for every path naming a single (non-directory) file,
`pin_file`'s upload assembly produces exactly one multipart part, and
that part's name is the file's base name. -/
theorem pin_file_single_file_single_part (fs : String → PathInput) (p : String)
    (bn : OsName) (s : String) (content : Bytes)
    (htree : (fs p).tree = .file (.ok content))
    (hname : (fs p).fileName = some bn)
    (hb : bn.toStr = some s) :
    pin_file fs (PinByFile.new p) =
      some (.ok ⟨"https://api.pinata.cloud/pinning/pinFileToIPFS",
        [⟨"file", s, content⟩], none, none⟩) := by
  rcases hfs : fs p with ⟨fn, tr⟩
  rw [hfs] at htree hname
  simp only at htree hname
  subst htree
  subst hname
  simp [pin_file, PinByFile.new, assembleFiles, assembleInput, hfs, hb]

/-- Witness for the C4 theorem at a concrete single file `f.txt`. -/
theorem pin_file_single_file_witness :
    pin_file exampleFileFs (PinByFile.new "f.txt") =
      some (.ok ⟨"https://api.pinata.cloud/pinning/pinFileToIPFS",
        [⟨"file", "f.txt", [9, 9]⟩], none, none⟩) :=
  pin_file_single_file_single_part exampleFileFs "f.txt" (.valid "f.txt") "f.txt"
    [9, 9] rfl rfl rfl

theorem walkEntries_names_valid (es : FsEntries) (pre : List OsName)
    (hpre : (namesToStr pre).isSome) (hv : allValidE es) :
    ∀ rel read, WalkEvent.fileEntry rel read ∈ walkEntries pre es →
      (namesToStr rel).isSome := by
  cases es with
  | nil =>
    intro rel read hmem
    simp [walkEntries] at hmem
  | cons n t rest =>
    intro rel read hmem
    simp only [allValidE] at hv
    obtain ⟨hn, hvt, hvr⟩ := hv
    have hpre' : (namesToStr (pre ++ [n])).isSome := by
      obtain ⟨spre, hspre⟩ := Option.isSome_iff_exists.mp hpre
      obtain ⟨s, hs⟩ := Option.isSome_iff_exists.mp hn
      rw [namesToStr_append pre [n] spre [s] hspre (by simp [namesToStr, hs])]
      simp
    rw [show walkEntries pre (.cons n t rest) =
        walkFrom (pre ++ [n]) t ++ walkEntries pre rest from rfl] at hmem
    rcases List.mem_append.mp hmem with hmem | hmem
    · cases t with
      | file read' =>
        simp only [walkFrom, List.mem_singleton] at hmem
        obtain ⟨hrel, -⟩ := WalkEvent.fileEntry.inj hmem
        rw [hrel]
        exact hpre'
      | dirUnreadable e =>
        simp [walkFrom] at hmem
      | dir es' =>
        rw [show walkFrom (pre ++ [n]) (.dir es') =
            .dirEntry (pre ++ [n]) :: walkEntries (pre ++ [n]) es' from rfl] at hmem
        simp only [List.mem_cons] at hmem
        rcases hmem with h | h
        · cases h
        · exact walkEntries_names_valid es' (pre ++ [n]) hpre'
            (by simpa [allValidT] using hvt) rel read h
    · exact walkEntries_names_valid rest pre hpre hvr rel read hmem
termination_by sizeOf es

theorem processEvents_isSome (b : OsName) (bs : String) (hb : b.toStr = some bs)
    (events : List WalkEvent)
    (hv : ∀ rel read, WalkEvent.fileEntry rel read ∈ events → (namesToStr rel).isSome) :
    (processEvents (some b) events).isSome := by
  induction events with
  | nil => simp [processEvents]
  | cons ev rest ih =>
    have ihr : (processEvents (some b) rest).isSome :=
      ih fun rel read h => hv rel read (List.mem_cons_of_mem _ h)
    cases ev with
    | failure e => simp [processEvents]
    | dirEntry rel => simpa [processEvents] using ihr
    | fileEntry rel read =>
      have hrel := hv rel read (List.mem_cons_self _ _)
      obtain ⟨ss, hss⟩ := Option.isSome_iff_exists.mp hrel
      have hrs : relPathStr rel = some (relPathString ss) := by
        simp [relPathStr, hss]
      cases read with
      | error e => simp [processEvents, hb, hrs]
      | ok content =>
        rcases hres : processEvents (some b) rest with _ | res
        · rw [hres] at ihr
          simp at ihr
        · cases res with
          | error e => simp [processEvents, hb, hrs, hres]
          | ok parts => simp [processEvents, hb, hrs, hres]

theorem processEvents_first_error (b : OsName) (bs : String) (hb : b.toStr = some bs)
    (events : List WalkEvent) (e : FileError)
    (hv : ∀ rel read, WalkEvent.fileEntry rel read ∈ events → (namesToStr rel).isSome)
    (he : firstWalkError events = some e) :
    processEvents (some b) events = some (.error e) := by
  induction events with
  | nil => simp [firstWalkError] at he
  | cons ev rest ih =>
    cases ev with
    | failure e' =>
      simp only [firstWalkError, Option.some.injEq] at he
      subst he
      rfl
    | dirEntry rel =>
      rw [show processEvents (some b) (.dirEntry rel :: rest) =
          processEvents (some b) rest from rfl]
      rw [show firstWalkError (.dirEntry rel :: rest) = firstWalkError rest from rfl] at he
      exact ih (fun r rd h => hv r rd (List.mem_cons_of_mem _ h)) he
    | fileEntry rel read =>
      have hrel := hv rel read (List.mem_cons_self _ _)
      obtain ⟨ss, hss⟩ := Option.isSome_iff_exists.mp hrel
      have hrs : relPathStr rel = some (relPathString ss) := by
        simp [relPathStr, hss]
      cases read with
      | error e' =>
        rw [show firstWalkError (.fileEntry rel (.error e') :: rest) =
            some e' from rfl] at he
        simp only [Option.some.injEq] at he
        subst he
        simp [processEvents, hb, hrs]
      | ok content =>
        rw [show firstWalkError (.fileEntry rel (.ok content) :: rest) =
            firstWalkError rest from rfl] at he
        have hrest := ih (fun r rd h => hv r rd (List.mem_cons_of_mem _ h)) he
        simp [processEvents, hb, hrs, hrest]

theorem assembleInput_first_error (input : PathInput) (bn : OsName) (bs : String)
    (hname : input.fileName = some bn) (hb : bn.toStr = some bs)
    (hv : allValidT input.tree) (e : FileError)
    (he : firstErrorOfInput input = some e) :
    assembleInput input = some (.error e) := by
  rcases input with ⟨fn, tr⟩
  simp only at hname hv
  subst hname
  cases tr with
  | file read =>
    cases read with
    | error e' =>
      simp only [firstErrorOfInput, Option.some.injEq] at he
      subst he
      simp [assembleInput, hb]
    | ok content => simp [firstErrorOfInput] at he
  | dirUnreadable e' =>
    simp only [firstErrorOfInput, firstWalkError, walkFrom, Option.some.injEq] at he
    subst he
    rfl
  | dir es =>
    rw [show assembleInput ⟨some bn, .dir es⟩ =
        processEvents (some bn) (walkFrom [] (.dir es)) from rfl]
    rw [show walkFrom [] (FsTree.dir es) = .dirEntry [] :: walkEntries [] es from rfl]
    rw [show ∀ l, processEvents (some bn) (WalkEvent.dirEntry [] :: l) =
        processEvents (some bn) l from fun _ => rfl]
    rw [show firstErrorOfInput ⟨some bn, .dir es⟩ =
        firstWalkError (.dirEntry [] :: walkEntries [] es) from rfl] at he
    rw [show firstWalkError (WalkEvent.dirEntry [] :: walkEntries [] es) =
        firstWalkError (walkEntries [] es) from rfl] at he
    exact processEvents_first_error bn bs hb _ e
      (walkEntries_names_valid es [] (by simp [namesToStr])
        (by simpa [allValidT] using hv)) he

/-- C8: during upload assembly in `pin_file`, the first error
encountered in walk order (a walk error or an I/O error reading a
file; a relative-path error cannot arise since every walked path
extends the base) aborts the whole assembly, is returned to the
caller, and no HTTP request is built for that call. -/
theorem pin_file_first_error_aborts (fs : String → PathInput) (p : String)
    (bn : OsName) (bs : String) (e : FileError)
    (hname : (fs p).fileName = some bn) (hb : bn.toStr = some bs)
    (hv : allValidT (fs p).tree)
    (he : firstErrorOfInput (fs p) = some e) :
    pin_file fs (PinByFile.new p) = some (.error e) ∧
    ∀ req : UploadRequest, pin_file fs (PinByFile.new p) ≠ some (.ok req) := by
  have hin := assembleInput_first_error (fs p) bn bs hname hb hv e he
  have hmain : pin_file fs (PinByFile.new p) = some (.error e) := by
    simp [pin_file, PinByFile.new, assembleFiles, hin]
  refine ⟨hmain, fun req hreq => ?_⟩
  rw [hmain] at hreq
  simp at hreq

/-- Witness for the C8 theorem: a directory whose single entry is an
unreadable file; the read error is returned and no request is built. -/
theorem pin_file_first_error_aborts_witness :
    pin_file exampleErrFs (PinByFile.new "d") = some (.error (.ioRead 7)) ∧
    ∀ req : UploadRequest, pin_file exampleErrFs (PinByFile.new "d") ≠ some (.ok req) :=
  pin_file_first_error_aborts exampleErrFs "d" (.valid "d") "d" (.ioRead 7)
    rfl rfl (by simp [exampleErrFs, allValidT, allValidE, OsName.toStr]) rfl

/-- C9: `pin_file` returns (rather than panicking) whenever the input
path has a base name and the base name and every entry name are valid
UTF-8; outside that precondition it can panic through `unwrap`: it
does so on a path with no base name (such as `/` or a path ending in
`..`) resolving to a directory with a file, and on a file whose base
name is not valid UTF-8. -/
theorem pin_file_panic_conditions :
    (∀ (fs : String → PathInput) (p : String) (bn : OsName) (bs : String),
      (fs p).fileName = some bn → bn.toStr = some bs →
      allValidT (fs p).tree → (pin_file fs (PinByFile.new p)).isSome) ∧
    pin_file exampleRootFs (PinByFile.new "/") = none ∧
    pin_file exampleNonUtf8Fs (PinByFile.new "x") = none := by
  refine ⟨?_, rfl, rfl⟩
  intro fs p bn bs hname hb hv
  have hin : (assembleInput (fs p)).isSome := by
    rcases hfs : fs p with ⟨fn, tr⟩
    rw [hfs] at hname hv
    simp only at hname hv
    subst hname
    cases tr with
    | file read => cases read <;> simp [assembleInput, hb]
    | dirUnreadable e => rfl
    | dir es =>
      rw [show assembleInput ⟨some bn, .dir es⟩ =
          processEvents (some bn) (walkFrom [] (.dir es)) from rfl]
      rw [show walkFrom [] (FsTree.dir es) = .dirEntry [] :: walkEntries [] es from rfl]
      rw [show ∀ l, processEvents (some bn) (WalkEvent.dirEntry [] :: l) =
          processEvents (some bn) l from fun _ => rfl]
      exact processEvents_isSome bn bs hb _
        (walkEntries_names_valid es [] (by simp [namesToStr])
          (by simpa [allValidT] using hv))
  rcases ha : assembleInput (fs p) with _ | res
  · rw [ha] at hin
    simp at hin
  · cases res with
    | error e => simp [pin_file, PinByFile.new, assembleFiles, ha]
    | ok parts => simp [pin_file, PinByFile.new, assembleFiles, ha]

/-- Witness for the C9 theorem's totality half at the example
directory. -/
theorem pin_file_panic_conditions_witness :
    (pin_file exampleDirFs (PinByFile.new "d")).isSome :=
  pin_file_panic_conditions.1 exampleDirFs "d" (.valid "d") "d" rfl rfl
    (by simp [exampleDirFs, exampleDirTree, allValidT, allValidE, OsName.toStr])

theorem sep_split_inj : ∀ (a b x y : List Char), '/' ∉ a → '/' ∉ b →
    a ++ '/' :: x = b ++ '/' :: y → a = b ∧ x = y := by
  intro a
  induction a with
  | nil =>
    intro b x y _ hb h
    cases b with
    | nil => simpa using h
    | cons c b' =>
      simp only [List.nil_append, List.cons_append, List.cons.injEq] at h
      cases h.1
      exact absurd (List.mem_cons_self _ _) hb
  | cons c a' ih =>
    intro b x y ha hb h
    cases b with
    | nil =>
      simp only [List.cons_append, List.nil_append, List.cons.injEq] at h
      cases h.1
      exact absurd (List.mem_cons_self _ _) ha
    | cons d b' =>
      simp only [List.cons_append, List.cons.injEq] at h
      obtain ⟨hcd, h'⟩ := h
      have ha' : '/' ∉ a' := fun hm => ha (List.mem_cons_of_mem _ hm)
      have hb' : '/' ∉ b' := fun hm => hb (List.mem_cons_of_mem _ hm)
      obtain ⟨h₁, h₂⟩ := ih b' x y ha' hb' h'
      exact ⟨by rw [hcd, h₁], h₂⟩

theorem string_append_left_cancel (s t u : String) (h : s ++ t = s ++ u) : t = u := by
  have hd := congrArg String.data h
  rw [String.data_append, String.data_append] at hd
  exact String.ext (List.append_cancel_left hd)

theorem relPathString_inj : ∀ (l₁ l₂ : List String),
    (∀ c ∈ l₁, '/' ∉ c.data) → (∀ c ∈ l₂, '/' ∉ c.data) →
    l₁ ≠ [] → l₂ ≠ [] →
    relPathString l₁ = relPathString l₂ → l₁ = l₂ := by
  intro l₁
  induction l₁ with
  | nil => intro l₂ _ _ hne _ _; exact absurd rfl hne
  | cons a l₁' ih =>
    intro l₂ h₁ h₂ _ hne₂ h
    cases l₂ with
    | nil => exact absurd rfl hne₂
    | cons b l₂' =>
      have hsa : '/' ∉ a.data := h₁ a (List.mem_cons_self _ _)
      have hsb : '/' ∉ b.data := h₂ b (List.mem_cons_self _ _)
      cases l₁' with
      | nil =>
        cases l₂' with
        | nil =>
          simp only [relPathString] at h
          rw [h]
        | cons b₂ l₂'' =>
          simp only [relPathString] at h
          have hd := congrArg String.data h
          rw [String.data_append, String.data_append] at hd
          have hmem : '/' ∈ a.data := by
            rw [hd]
            have hsep : ("/" : String).data = ['/'] := rfl
            rw [hsep]
            simp
          exact absurd hmem hsa
      | cons a₂ l₁'' =>
        cases l₂' with
        | nil =>
          simp only [relPathString] at h
          have hd := congrArg String.data h
          rw [String.data_append, String.data_append] at hd
          have hmem : '/' ∈ b.data := by
            rw [← hd]
            have hsep : ("/" : String).data = ['/'] := rfl
            rw [hsep]
            simp
          exact absurd hmem hsb
        | cons b₂ l₂'' =>
          simp only [relPathString] at h
          have hd := congrArg String.data h
          rw [String.data_append, String.data_append,
            String.data_append, String.data_append] at hd
          have hsep : ("/" : String).data = ['/'] := rfl
          rw [hsep] at hd
          simp only [List.append_assoc, List.singleton_append] at hd
          obtain ⟨hab, hxy⟩ := sep_split_inj a.data b.data _ _ hsa hsb hd
          have hab' : a = b := String.ext hab
          have hxy' : relPathString (a₂ :: l₁'') = relPathString (b₂ :: l₂'') :=
            String.ext hxy
          have h₁' : ∀ c ∈ a₂ :: l₁'', '/' ∉ c.data :=
            fun c hc => h₁ c (List.mem_cons_of_mem _ hc)
          have h₂' : ∀ c ∈ b₂ :: l₂'', '/' ∉ c.data :=
            fun c hc => h₂ c (List.mem_cons_of_mem _ hc)
          have := ih (b₂ :: l₂'') h₁' h₂' (by simp) (by simp) hxy'
          rw [hab', this]

theorem allValidE_of_goodE (es : FsEntries) (hg : goodE es) : allValidE es := by
  cases es with
  | nil => rw [show allValidE .nil = True from rfl]; trivial
  | cons n t rest =>
    simp only [goodE] at hg
    obtain ⟨hn, hgt, hgr⟩ := hg
    rw [show allValidE (.cons n t rest) =
        ((n.toStr).isSome ∧ allValidT t ∧ allValidE rest) from rfl]
    refine ⟨?_, ?_, allValidE_of_goodE rest hgr⟩
    · cases n with
      | valid s => simp [OsName.toStr]
      | invalid i => exact absurd hn (by simp [goodName])
    · cases t with
      | file read => rw [show allValidT (.file read) = True from rfl]; trivial
      | dirUnreadable e => rw [show allValidT (.dirUnreadable e) = True from rfl]; trivial
      | dir es' =>
        rw [show allValidT (.dir es') = allValidE es' from rfl]
        simp only [goodT] at hgt
        exact allValidE_of_goodE es' hgt.2
termination_by sizeOf es

theorem tryFilesE_paths_good (es : FsEntries) (fl : List (List String × Bytes))
    (hg : goodE es) (hnd : (entryNames es).Nodup) (h : tryFilesE es = some fl) :
    (fl.map Prod.fst).Nodup ∧
    ∀ q ∈ fl, q.1 ≠ [] ∧ (∀ c ∈ q.1, '/' ∉ c.data) ∧
      ∃ s rest', q.1 = s :: rest' ∧ OsName.valid s ∈ entryNames es := by
  cases es with
  | nil =>
    simp only [tryFilesE, Option.some.injEq] at h
    subst h
    simp
  | cons n t rest =>
    simp only [goodE] at hg
    obtain ⟨hn, hgt, hgr⟩ := hg
    obtain ⟨s, hs, hsfree⟩ : ∃ s, n = OsName.valid s ∧ '/' ∉ s.data := by
      cases n with
      | valid s =>
        refine ⟨s, rfl, ?_⟩
        have hg' : s.data ≠ [] ∧ '/' ∉ s.data := by simpa [goodName] using hn
        exact hg'.2
      | invalid i => exact absurd hn (by simp [goodName])
    subst hs
    simp only [tryFilesE, OsName.toStr] at h
    cases ht : tryFilesT t with
    | none => simp [ht] at h
    | some here =>
      cases hr : tryFilesE rest with
      | none => simp [ht, hr] at h
      | some more =>
        simp only [ht, hr, Option.some.injEq] at h
        subst h
        have hndr : (entryNames rest).Nodup := by
          rw [show entryNames (.cons (OsName.valid s) t rest) =
              OsName.valid s :: entryNames rest from rfl] at hnd
          exact hnd.of_cons
        have hnmem : OsName.valid s ∉ entryNames rest := by
          rw [show entryNames (.cons (OsName.valid s) t rest) =
              OsName.valid s :: entryNames rest from rfl] at hnd
          exact (List.nodup_cons.mp hnd).1
        obtain ⟨hmore_nd, hmore_facts⟩ := tryFilesE_paths_good rest more hgr hndr hr
        have hhere : (here.map Prod.fst).Nodup ∧
            ∀ q ∈ here, ∀ c ∈ q.1, '/' ∉ c.data := by
          cases t with
          | file read =>
            cases read with
            | error e => simp [tryFilesT] at ht
            | ok content =>
              simp only [tryFilesT, Option.some.injEq] at ht
              subst ht
              simp
          | dirUnreadable e => simp [tryFilesT] at ht
          | dir es' =>
            rw [show tryFilesT (.dir es') = tryFilesE es' from rfl] at ht
            simp only [goodT] at hgt
            obtain ⟨hnd', hge'⟩ := hgt
            obtain ⟨h1, h2⟩ := tryFilesE_paths_good es' here hge' hnd' ht
            exact ⟨h1, fun q hq => (h2 q hq).2.1⟩
        obtain ⟨hhere_nd, hhere_free⟩ := hhere
        constructor
        · rw [List.map_append, List.map_map]
          have hmapeq : (Prod.fst ∘ fun q : List String × Bytes => (s :: q.1, q.2)) =
              (fun q : List String × Bytes => s :: q.1) := rfl
          rw [hmapeq]
          have hleft : (here.map fun q : List String × Bytes => s :: q.1).Nodup := by
            have : (here.map fun q : List String × Bytes => s :: q.1) =
                (here.map Prod.fst).map (fun c => s :: c) := by
              rw [List.map_map]
              rfl
            rw [this]
            exact hhere_nd.map List.cons_injective
          refine hleft.append hmore_nd ?_
          intro x hx hx'
          obtain ⟨q, hq, hqx⟩ := List.mem_map.mp hx
          obtain ⟨q', hq', hq'x⟩ := List.mem_map.mp hx'
          obtain ⟨s', rest', hpath, hmem⟩ := (hmore_facts q' hq').2.2
          rw [← hqx, hpath] at hq'x
          have : s = s' := (List.cons.injEq _ _ _ _).mp hq'x.symm |>.1
          subst this
          exact hnmem hmem
        · intro q hq
          rcases List.mem_append.mp hq with hq | hq
          · obtain ⟨q', hq', hqx⟩ := List.mem_map.mp hq
            subst hqx
            refine ⟨by simp, ?_, ?_⟩
            · intro c hc
              rcases List.mem_cons.mp hc with hc | hc
              · subst hc
                exact hsfree
              · exact hhere_free q' hq' c hc
            · refine ⟨s, q'.1, rfl, ?_⟩
              rw [show entryNames (.cons (OsName.valid s) t rest) =
                  OsName.valid s :: entryNames rest from rfl]
              exact List.mem_cons_self _ _
          · obtain ⟨hne, hfree, s', rest', hpath, hmem⟩ := hmore_facts q hq
            exact ⟨hne, hfree, s', rest', hpath, by
              rw [show entryNames (.cons (OsName.valid s) t rest) =
                  OsName.valid s :: entryNames rest from rfl]
              exact List.mem_cons_of_mem _ hmem⟩
termination_by sizeOf es

theorem processEvents_append_ok_inv (bn : Option OsName) (l₁ l₂ : List WalkEvent)
    (parts : List FilePart)
    (h : processEvents bn (l₁ ++ l₂) = some (.ok parts)) :
    ∃ p₁ p₂, processEvents bn l₁ = some (.ok p₁) ∧
      processEvents bn l₂ = some (.ok p₂) ∧ parts = p₁ ++ p₂ := by
  induction l₁ generalizing parts with
  | nil => exact ⟨[], parts, rfl, by simpa using h, rfl⟩
  | cons ev rest ih =>
    cases ev with
    | failure e =>
      rw [List.cons_append] at h
      simp [processEvents] at h
    | dirEntry rel =>
      rw [List.cons_append] at h
      rw [show ∀ l, processEvents bn (WalkEvent.dirEntry rel :: l) =
          processEvents bn l from fun _ => rfl] at h
      obtain ⟨p₁, p₂, h₁, h₂, hsplit⟩ := ih parts h
      exact ⟨p₁, p₂, h₁, h₂, hsplit⟩
    | fileEntry rel read =>
      rw [List.cons_append] at h
      cases bn with
      | none => simp [processEvents] at h
      | some b =>
        cases hb : b.toStr with
        | none => simp [processEvents, hb] at h
        | some bs =>
          cases hrs : relPathStr rel with
          | none => simp [processEvents, hb, hrs] at h
          | some rs =>
            cases read with
            | error e => simp [processEvents, hb, hrs] at h
            | ok content =>
              cases hrest : processEvents (some b) (rest ++ l₂) with
              | none => simp [processEvents, hb, hrs, hrest] at h
              | some res =>
                cases res with
                | error e => simp [processEvents, hb, hrs, hrest] at h
                | ok parts' =>
                  simp only [processEvents, hb, hrs, hrest, Option.some.injEq,
                    Except.ok.injEq] at h
                  obtain ⟨p₁, p₂, h₁, h₂, hsplit⟩ := ih parts' hrest
                  refine ⟨⟨"file", bs ++ "/" ++ rs, content⟩ :: p₁, p₂, ?_, h₂, ?_⟩
                  · simp [processEvents, hb, hrs, h₁]
                  · rw [← h, hsplit]
                    rfl

theorem processEvents_dead_base_ok (bn : Option OsName)
    (hdead : bn.bind OsName.toStr = none) (events : List WalkEvent)
    (parts : List FilePart)
    (h : processEvents bn events = some (.ok parts)) : parts = [] := by
  induction events with
  | nil =>
    simp only [processEvents, Option.some.injEq, Except.ok.injEq] at h
    exact h.symm
  | cons ev rest ih =>
    cases ev with
    | failure e => simp [processEvents] at h
    | dirEntry rel =>
      rw [show processEvents bn (.dirEntry rel :: rest) =
          processEvents bn rest from rfl] at h
      exact ih h
    | fileEntry rel read =>
      cases bn with
      | none => simp [processEvents] at h
      | some b =>
        have hb : b.toStr = none := by simpa [Option.bind] using hdead
        simp [processEvents, hb] at h

theorem tryFilesE_of_processEvents_ok (bn : OsName) (es : FsEntries)
    (pre : List OsName) (hpre : (namesToStr pre).isSome)
    (hv : allValidE es) (parts : List FilePart)
    (h : processEvents (some bn) (walkEntries pre es) = some (.ok parts)) :
    ∃ fl, tryFilesE es = some fl := by
  cases es with
  | nil => exact ⟨[], rfl⟩
  | cons n t rest =>
    simp only [allValidE] at hv
    obtain ⟨hn, hvt, hvr⟩ := hv
    obtain ⟨s, hs⟩ := Option.isSome_iff_exists.mp hn
    have hpre' : (namesToStr (pre ++ [n])).isSome := by
      obtain ⟨spre, hspre⟩ := Option.isSome_iff_exists.mp hpre
      rw [namesToStr_append pre [n] spre [s] hspre (by simp [namesToStr, hs])]
      simp
    rw [show walkEntries pre (.cons n t rest) =
        walkFrom (pre ++ [n]) t ++ walkEntries pre rest from rfl] at h
    obtain ⟨p₁, p₂, h₁, h₂, -⟩ := processEvents_append_ok_inv _ _ _ _ h
    obtain ⟨flr, hflr⟩ := tryFilesE_of_processEvents_ok bn rest pre hpre hvr p₂ h₂
    have hT : ∃ flT, tryFilesT t = some flT := by
      cases t with
      | file read =>
        cases read with
        | error e =>
          cases hbt : bn.toStr with
          | none => simp [walkFrom, processEvents, hbt] at h₁
          | some bs =>
            cases hrs : relPathStr (pre ++ [n]) with
            | none => simp [walkFrom, processEvents, hbt, hrs] at h₁
            | some rs => simp [walkFrom, processEvents, hbt, hrs] at h₁
        | ok content => exact ⟨[([], content)], rfl⟩
      | dirUnreadable e =>
        rw [show walkFrom (pre ++ [n]) (.dirUnreadable e) =
            [.dirEntry (pre ++ [n]), .failure e] from rfl] at h₁
        simp [processEvents] at h₁
      | dir es' =>
        rw [show walkFrom (pre ++ [n]) (.dir es') =
            .dirEntry (pre ++ [n]) :: walkEntries (pre ++ [n]) es' from rfl] at h₁
        rw [show ∀ l, processEvents (some bn) (WalkEvent.dirEntry (pre ++ [n]) :: l) =
            processEvents (some bn) l from fun _ => rfl] at h₁
        obtain ⟨fl', hfl'⟩ := tryFilesE_of_processEvents_ok bn es' (pre ++ [n]) hpre'
          (by simpa [allValidT] using hvt) p₁ h₁
        exact ⟨fl', by rw [show tryFilesT (.dir es') = tryFilesE es' from rfl]; exact hfl'⟩
    obtain ⟨flT, hflT⟩ := hT
    exact ⟨flT.map (fun q => (s :: q.1, q.2)) ++ flr, by
      simp [tryFilesE, hs, hflT, hflr]⟩
termination_by sizeOf es

/-- C5: in every multipart request `pin_file` assembles over a
well-formed file system (distinct sibling names, names nonempty and
slash-free), the names of the file parts are pairwise distinct. -/
theorem pin_file_fileNames_nodup (fs : String → PathInput) (p : String)
    (hg : goodT (fs p).tree) (req : UploadRequest)
    (h : pin_file fs (PinByFile.new p) = some (.ok req)) :
    (req.fileParts.map FilePart.fileName).Nodup := by
  have hin : ∃ parts, assembleInput (fs p) = some (.ok parts) ∧ req.fileParts = parts := by
    rcases ha : assembleInput (fs p) with _ | res
    · simp [pin_file, PinByFile.new, assembleFiles, ha] at h
    · cases res with
      | error e => simp [pin_file, PinByFile.new, assembleFiles, ha] at h
      | ok parts =>
        refine ⟨parts, rfl, ?_⟩
        simp only [pin_file, PinByFile.new, assembleFiles, List.map_cons, List.map_nil,
          ha, Option.some.injEq, Except.ok.injEq] at h
        rw [← h]
        simp
  obtain ⟨parts, ha, hparts⟩ := hin
  rw [hparts]
  rcases hfs : fs p with ⟨fn, tr⟩
  rw [hfs] at hg ha
  simp only at hg ha
  cases tr with
  | file read =>
    cases fn with
    | none => simp [assembleInput] at ha
    | some b =>
      cases hb : b.toStr with
      | none => simp [assembleInput, hb] at ha
      | some s =>
        cases read with
        | error e => simp [assembleInput, hb] at ha
        | ok content =>
          simp only [assembleInput, hb, Option.some.injEq, Except.ok.injEq] at ha
          rw [← ha]
          simp
  | dirUnreadable e =>
    rw [show assembleInput ⟨fn, .dirUnreadable e⟩ =
        processEvents fn (walkFrom [] (.dirUnreadable e)) from rfl] at ha
    rw [show walkFrom [] (FsTree.dirUnreadable e) =
        [.dirEntry [], .failure e] from rfl] at ha
    simp [processEvents] at ha
  | dir es =>
    simp only [goodT] at hg
    obtain ⟨hnd, hge⟩ := hg
    rw [show assembleInput ⟨fn, .dir es⟩ =
        processEvents fn (walkFrom [] (.dir es)) from rfl] at ha
    rw [show walkFrom [] (FsTree.dir es) = .dirEntry [] :: walkEntries [] es from rfl] at ha
    rw [show ∀ l, processEvents fn (WalkEvent.dirEntry [] :: l) =
        processEvents fn l from fun _ => rfl] at ha
    rcases fn with _ | b
    · have hempty : parts = [] := processEvents_dead_base_ok none rfl _ _ ha
      simp [hempty]
    · cases hb : b.toStr with
      | none =>
        have hempty : parts = [] :=
          processEvents_dead_base_ok (some b) (by simp [Option.bind, hb]) _ _ ha
        simp [hempty]
      | some bs =>
        have hvalid : allValidE es := allValidE_of_goodE es hge
        obtain ⟨fl, hfl⟩ := tryFilesE_of_processEvents_ok b es []
          (by simp [namesToStr]) hvalid parts ha
        have hforward := walkEntries_processed b bs hb es fl [] [] hfl rfl
        rw [hforward] at ha
        simp only [Option.some.injEq, Except.ok.injEq] at ha
        obtain ⟨hndp, hfacts⟩ := tryFilesE_paths_good es fl hge hnd hfl
        rw [← ha]
        rw [List.map_map]
        have hcomp : (FilePart.fileName ∘ fun q : List String × Bytes =>
            (⟨"file", bs ++ "/" ++ relPathString ([] ++ q.1), q.2⟩ : FilePart)) =
            (fun q : List String × Bytes => bs ++ "/" ++ relPathString q.1) := by
          funext q
          simp
        rw [hcomp]
        have hsplit : (fl.map fun q : List String × Bytes =>
            bs ++ "/" ++ relPathString q.1) =
            (fl.map Prod.fst).map (fun c => bs ++ "/" ++ relPathString c) := by
          rw [List.map_map]
          rfl
        rw [hsplit]
        apply List.Nodup.map_on ?_ hndp
        intro x hx y hy hxy
        obtain ⟨qx, hqx, hqx'⟩ := List.mem_map.mp hx
        obtain ⟨qy, hqy, hqy'⟩ := List.mem_map.mp hy
        have hxfacts := hfacts qx hqx
        have hyfacts := hfacts qy hqy
        have h1 : relPathString x = relPathString y := by
          have h2 := congrArg String.data hxy
          simp only [String.data_append, List.append_assoc] at h2
          have h3 := List.append_cancel_left h2
          have h4 := List.append_cancel_left h3
          exact String.ext h4
        exact relPathString_inj x y (by rw [← hqx']; exact hxfacts.2.1)
          (by rw [← hqy']; exact hyfacts.2.1)
          (by rw [← hqx']; exact hxfacts.1) (by rw [← hqy']; exact hyfacts.1) h1

/-- Witness for the C5 theorem: the concrete request assembled for the
example directory has the two distinct names `d/a.txt` and
`d/sub/b.txt`. -/
theorem pin_file_fileNames_nodup_witness :
    (([⟨"file", "d/a.txt", [1, 2]⟩, ⟨"file", "d/sub/b.txt", [3]⟩] :
        List FilePart).map FilePart.fileName).Nodup :=
  pin_file_fileNames_nodup exampleDirFs "d"
    (by simp [exampleDirFs, exampleDirTree, goodT, goodE, goodName, entryNames])
    ⟨"https://api.pinata.cloud/pinning/pinFileToIPFS",
      [⟨"file", "d/a.txt", [1, 2]⟩, ⟨"file", "d/sub/b.txt", [3]⟩], none, none⟩ rfl
